import Mathlib

/-!
Verification of the Paillier cryptosystem implementation (paillier.go).

The Go source is shallowly embedded: big.Int values are modelled as Nat
(all values appearing in the code are non-negative), except inside Decrypt
where Go computes a possibly negative intermediate value, modelled with Int
using Euclidean division and modulus exactly as math/big's Div and Mod.
Byte slices are modelled as lists of naturals; big.Int.SetBytes and
big.Int.Bytes are modelled by setBytes and toBytes (unsigned big-endian,
minimal length). Randomness (rand.Prime) is externalized: the sampled
values are parameters of the embedded functions. A Go error return is
modelled with Except, and the nullable *big.Int returned by
math/big ModInverse is modelled with Option.
-/

namespace Paillier

/-- Models big.Int.SetBytes: interpret a byte slice as an unsigned
big-endian integer. -/
def setBytes (bs : List Nat) : Nat :=
  bs.foldl (fun acc b => acc * 256 + b) 0

/-- Helper for toBytes: first argument is recursion fuel (any fuel at least
the value computes the big-endian digits). -/
def toBytesAux : Nat → Nat → List Nat
  | _, 0 => []
  | 0, _ + 1 => []
  | f + 1, n + 1 => toBytesAux f ((n + 1) / 256) ++ [(n + 1) % 256]

/-- Models big.Int.Bytes: the minimal unsigned big-endian byte encoding of
a non-negative integer; the encoding of 0 is the empty slice. -/
def toBytes (n : Nat) : List Nat := toBytesAux n n

/-- PublicKey represents Paillier public key (paillier.go). -/
structure PublicKey where
  N : Nat
  G : Nat
  NSquared : Nat
deriving DecidableEq

/-- PrivateKey represents a Paillier private key (paillier.go). The field
U models the *big.Int set by ModInverse, which is nil (none) when the
inverse does not exist. -/
structure PrivateKey where
  pubKey : PublicKey
  L : Nat
  U : Option Nat
deriving DecidableEq

/-- The two error values ErrLargeMessage and ErrLargeCipher of paillier.go. -/
inductive PaillierError where
  | largeMessage
  | largeCipher
deriving DecidableEq

/-- Models math/big ModInverse g n: the multiplicative inverse of g in
Z_n when it exists (the unique u in [0, n) with g*u = 1 mod n), and
none (Go: nil) otherwise. -/
def modInverse (g n : Nat) : Option Nat :=
  (List.range n).find? (fun u => g * u % n = 1)

/-- GenerateKey, with the two rand.Prime draws externalized: the input is
some (p, q) when prime sampling succeeded and none when it failed (in
which case the Go code propagates the sampling error). -/
def generateKey : Option (Nat × Nat) → Option PrivateKey
  | none => none
  | some (p, q) =>
    let n := p * q
    let g := n + 1
    let nsquare := n * n
    let l := (p - 1) * (q - 1)
    let u := modInverse l n
    some { pubKey := { N := n, G := g, NSquared := nsquare }, L := l, U := u }

/-- PublicKey.Encrypt, with the rand.Prime draw r externalized. Returns
ErrLargeMessage when the plaintext value exceeds NSquared (the source
check is m.Cmp(pub.NSquared) == 1, that is m strictly greater). -/
def encrypt (pub : PublicKey) (r : Nat) (plainText : List Nat) :
    Except PaillierError (List Nat) :=
  let m := setBytes plainText
  if pub.NSquared < m then .error .largeMessage
  else
    .ok (toBytes (pub.G ^ m % pub.NSquared * (r ^ pub.N % pub.NSquared) %
      pub.NSquared))

/-- The ciphertext value produced by a successful Encrypt of plaintext
value m with sampled randomness r. -/
def encVal (pub : PublicKey) (r m : Nat) : Nat :=
  pub.G ^ m % pub.NSquared * (r ^ pub.N % pub.NSquared) % pub.NSquared

/-- PrivateKey.Decrypt. The outer Option models Go runtime behaviour:
none is the nil-pointer panic Go hits when priv.U is nil (GenerateKey
never checks the ModInverse result). The intermediate value a - 1 can be
negative (for example when the ciphertext value is 0), so that part is
computed over Int with Euclidean Div and Mod, as math/big does. -/
def decrypt (priv : PrivateKey) (cipherText : List Nat) :
    Option (Except PaillierError (List Nat)) :=
  let c := setBytes cipherText
  if priv.pubKey.NSquared < c then some (.error .largeCipher)
  else
    match priv.U with
    | none => none
    | some u =>
      let a := c ^ priv.L % priv.pubKey.NSquared
      let l := Int.ediv ((a : Int) - 1) (priv.pubKey.N : Int)
      let m := Int.emod (l * (u : Int)) (priv.pubKey.N : Int)
      some (.ok (toBytes m.toNat))

/-- PublicKey.HomomorphicEncTwo. Note the source condition: it errors
only when BOTH parsed ciphertext values are strictly greater than
NSquared (cipherA.Cmp == 1 && cipherB.Cmp == 1). -/
def homomorphicEncTwo (pub : PublicKey) (c1 c2 : List Nat) :
    Except PaillierError (List Nat) :=
  let cipherA := setBytes c1
  let cipherB := setBytes c2
  if pub.NSquared < cipherA ∧ pub.NSquared < cipherB then .error .largeCipher
  else .ok (toBytes (cipherA * cipherB % pub.NSquared))

/-- The loop of PublicKey.HommorphicEncMultiple: fold the accumulator C
over the ciphertexts, failing on the first value strictly greater than
NSquared. -/
def hommorphicEncMultipleLoop (pub : PublicKey) (C : Nat) :
    List (List Nat) → Except PaillierError Nat
  | [] => .ok C
  | c :: cs =>
    let cipher := setBytes c
    if pub.NSquared < cipher then .error .largeCipher
    else hommorphicEncMultipleLoop pub (C * cipher % pub.NSquared) cs

/-- PublicKey.HommorphicEncMultiple (sic, source spelling): the
accumulator starts at the shared constant one. -/
def hommorphicEncMultiple (pub : PublicKey) (ciphers : List (List Nat)) :
    Except PaillierError (List Nat) :=
  (hommorphicEncMultipleLoop pub 1 ciphers).map toBytes

/-- Modelled from the spec's words for the refinement half of C3:
repeated pairwise combination, folding the input sequence with
HomomorphicCombineTwo (the empty case, outside the claim, is the neutral
encoding of 1). -/
def homomorphicCombineManySpec (pub : PublicKey) :
    List (List Nat) → Except PaillierError (List Nat)
  | [] => .ok (toBytes 1)
  | c :: cs => cs.foldlM (fun acc c2 => homomorphicEncTwo pub acc c2) c

deriving instance DecidableEq for Except

/-! ## Byte-encoding lemmas -/

/-- toBytesAux does not depend on the fuel once the fuel reaches the value. -/
theorem toBytesAux_congr : ∀ (n f g : Nat), n ≤ f → n ≤ g →
    toBytesAux f n = toBytesAux g n := by
  intro n
  induction n using Nat.strong_induction_on with
  | _ n ih =>
    intro f g hf hg
    cases n with
    | zero => cases f <;> cases g <;> rfl
    | succ m =>
      cases f with
      | zero => omega
      | succ f2 =>
        cases g with
        | zero => omega
        | succ g2 =>
          have hlt : (m + 1) / 256 < m + 1 :=
            Nat.div_lt_self (Nat.succ_pos m) (by norm_num)
          simp only [toBytesAux]
          rw [ih ((m + 1) / 256) hlt f2 g2 (by omega) (by omega)]

/-- Unfolding equation for toBytes on positive input. -/
theorem toBytes_eq_of_pos (n : Nat) (h : 0 < n) :
    toBytes n = toBytes (n / 256) ++ [n % 256] := by
  cases n with
  | zero => omega
  | succ m =>
    have hle : (m + 1) / 256 ≤ m :=
      Nat.lt_succ_iff.mp (Nat.div_lt_self (Nat.succ_pos m) (by norm_num))
    simp only [toBytes, toBytesAux]
    rw [toBytesAux_congr ((m + 1) / 256) m ((m + 1) / 256) hle le_rfl]

/-- Parsing after appending one byte. -/
theorem setBytes_append (bs : List Nat) (b : Nat) :
    setBytes (bs ++ [b]) = setBytes bs * 256 + b := by
  simp [setBytes, List.foldl_append]

/-- Round trip of the byte encoding: parsing the minimal big-endian
encoding recovers the value. -/
theorem setBytes_toBytes : ∀ n : Nat, setBytes (toBytes n) = n := by
  intro n
  induction n using Nat.strong_induction_on with
  | _ n ih =>
    rcases Nat.eq_zero_or_pos n with h | h
    · subst h; rfl
    · rw [toBytes_eq_of_pos n h, setBytes_append,
        ih (n / 256) (Nat.div_lt_self h (by norm_num))]
      omega

/-! ## modInverse lemmas -/

/-- When modInverse returns a value it is a genuine modular inverse. -/
theorem modInverse_spec (g n u : Nat) (h : modInverse g n = some u) :
    g * u % n = 1 := by
  have := List.find?_some h
  simpa using this

/-! ## Number-theoretic core of Paillier decryption -/

/-- Binomial congruence: (N+1)^k = 1 + kN modulo N^2. -/
theorem pow_add_one_modEq (N k : Nat) :
    (N + 1) ^ k ≡ 1 + k * N [MOD N * N] := by
  induction k with
  | zero =>
    show (N + 1) ^ 0 % (N * N) = (1 + 0 * N) % (N * N)
    norm_num
  | succ k ih =>
    have h3 : (1 + k * N) * (N + 1) = 1 + (k + 1) * N + k * (N * N) := by ring
    have h4 : 1 + (k + 1) * N + k * (N * N) ≡ 1 + (k + 1) * N [MOD N * N] := by
      show (1 + (k + 1) * N + k * (N * N)) % (N * N) = (1 + (k + 1) * N) % (N * N)
      rw [Nat.add_mul_mod_self_right]
    calc (N + 1) ^ (k + 1) = (N + 1) ^ k * (N + 1) := pow_succ _ _
      _ ≡ (1 + k * N) * (N + 1) [MOD N * N] := ih.mul_right _
      _ = 1 + (k + 1) * N + k * (N * N) := h3
      _ ≡ 1 + (k + 1) * N [MOD N * N] := h4

/-- Euler totient of N^2 for N the product of two distinct primes. -/
theorem totient_N_squared (p q : Nat) (hp : p.Prime) (hq : q.Prime)
    (hpq : p ≠ q) :
    Nat.totient (p * q * (p * q)) = p * q * ((p - 1) * (q - 1)) := by
  have h1 : p * q * (p * q) = p ^ 2 * q ^ 2 := by ring
  have hco : Nat.Coprime (p ^ 2) (q ^ 2) :=
    ((Nat.coprime_primes hp hq).mpr hpq).pow 2 2
  rw [h1, Nat.totient_mul hco, Nat.totient_prime_pow hp (by norm_num),
    Nat.totient_prime_pow hq (by norm_num)]
  ring

/-- Euler's theorem instantiated at N^2: any R coprime to N raised to
N * phi(N) is 1 modulo N^2. -/
theorem pow_N_L_modEq (p q R : Nat) (hp : p.Prime) (hq : q.Prime)
    (hpq : p ≠ q) (hR : Nat.Coprime R (p * q)) :
    R ^ (p * q * ((p - 1) * (q - 1))) ≡ 1 [MOD p * q * (p * q)] := by
  have hco : Nat.Coprime R (p * q * (p * q)) := Nat.Coprime.mul_right hR hR
  have h := Nat.ModEq.pow_totient hco
  rwa [totient_N_squared p q hp hq hpq] at h


theorem int_toNat_step (x y u n : Nat) (hx : 1 ≤ x) :
    (Int.emod (Int.ediv ((x : Int) - 1) (y : Int) * (u : Int)) (n : Int)).toNat
      = (x - 1) / y * u % n := by
  have h1 : ((x : Int) - 1) = ((x - 1 : Nat) : Int) := by omega
  have h2 : Int.ediv ((x - 1 : Nat) : Int) ((y : Nat) : Int)
      = (((x - 1) / y : Nat) : Int) := rfl
  have h3 : ((((x - 1) / y : Nat) : Int)) * ((u : Nat) : Int)
      = (((x - 1) / y * u : Nat) : Int) := by push_cast; ring
  have h4 : Int.emod (((x - 1) / y * u : Nat) : Int) ((n : Nat) : Int)
      = ((((x - 1) / y * u) % n : Nat) : Int) := rfl
  rw [h1, h2, h3, h4, Int.toNat_natCast]

theorem decrypt_value_core (p q s R u c : Nat) (hp : p.Prime) (hq : q.Prime)
    (hpq : p ≠ q) (hR : Nat.Coprime R (p * q))
    (hu : (p - 1) * (q - 1) * u % (p * q) = 1)
    (hc : c ≡ (p * q + 1) ^ s * R ^ (p * q) [MOD p * q * (p * q)]) :
    1 ≤ c ^ ((p - 1) * (q - 1)) % (p * q * (p * q)) ∧
    (c ^ ((p - 1) * (q - 1)) % (p * q * (p * q)) - 1) / (p * q) * u % (p * q)
      = s % (p * q) := by
  have hN1 : 1 < p * q := by
    calc 1 < 2 * 2 := by norm_num
      _ ≤ p * q := Nat.mul_le_mul hp.two_le hq.two_le
  set N := p * q with hN
  set L := (p - 1) * (q - 1) with hL
  have h1 : c ^ L ≡ (N + 1) ^ (s * L) * R ^ (N * L) [MOD N * N] := by
    calc c ^ L ≡ ((N + 1) ^ s * R ^ N) ^ L [MOD N * N] := hc.pow L
      _ = (N + 1) ^ (s * L) * R ^ (N * L) := by
          rw [mul_pow, ← pow_mul, ← pow_mul]
  have h2 : R ^ (N * L) ≡ 1 [MOD N * N] := pow_N_L_modEq p q R hp hq hpq hR
  have h3 : (N + 1) ^ (s * L) ≡ 1 + s * L * N [MOD N * N] :=
    pow_add_one_modEq N (s * L)
  have h4 : c ^ L ≡ 1 + s * L * N [MOD N * N] := by
    calc c ^ L ≡ (N + 1) ^ (s * L) * R ^ (N * L) [MOD N * N] := h1
      _ ≡ (1 + s * L * N) * 1 [MOD N * N] := h3.mul h2
      _ = 1 + s * L * N := mul_one _
  set a := c ^ L % (N * N) with ha
  have haT : a = (1 + s * L * N) % (N * N) := h4
  have haN : a % N = 1 := by
    rw [haT, Nat.mod_mod_of_dvd _ (dvd_mul_right N N),
      Nat.add_mul_mod_self_right]
    exact Nat.mod_eq_of_lt hN1
  have ha1 : 1 ≤ a := by
    rcases Nat.eq_zero_or_pos a with h | h
    · rw [h] at haN; simp at haN
    · exact h
  refine ⟨ha1, ?_⟩
  set K := (1 + s * L * N) / (N * N) with hK
  have hTK : N * N * K + a = 1 + s * L * N := by
    rw [haT, hK]
    exact Nat.div_add_mod _ _
  have hdvd1 : N ∣ a - 1 := by
    have h5 : 1 ≡ a [MOD N] := by
      show 1 % N = a % N
      rw [haN, Nat.mod_eq_of_lt hN1]
    exact (Nat.modEq_iff_dvd' ha1).mp h5
  set l := (a - 1) / N with hl
  have hal : a = l * N + 1 := by
    have h6 : l * N = a - 1 := by rw [hl]; exact Nat.div_mul_cancel hdvd1
    omega
  have h7 : N * N * K + l * N = s * L * N := by omega
  have h8 : N * (N * K + l) = N * (s * L) := by
    calc N * (N * K + l) = N * N * K + l * N := by ring
      _ = s * L * N := h7
      _ = N * (s * L) := by ring
  have hcancel : N * K + l = s * L := Nat.eq_of_mul_eq_mul_left (by omega) h8
  have h9 : l % N = s * L % N := by
    rw [← hcancel, Nat.add_comm, Nat.add_mul_mod_self_left]
  calc l * u % N = l % N * (u % N) % N := Nat.mul_mod _ _ _
    _ = s * L % N * (u % N) % N := by rw [h9]
    _ = s * L * u % N := (Nat.mul_mod _ _ _).symm
    _ = s * (L * u) % N := by rw [Nat.mul_assoc]
    _ = s % N * (L * u % N) % N := Nat.mul_mod _ _ _
    _ = s % N * 1 % N := by rw [hu]
    _ = s % N % N := by rw [Nat.mul_one]
    _ = s % N := Nat.mod_mod_of_dvd _ dvd_rfl

theorem decrypt_generated_key (p q s R u c : Nat) (key : PrivateKey)
    (hp : p.Prime) (hq : q.Prime) (hpq : p ≠ q)
    (hgen : generateKey (some (p, q)) = some key) (hu : key.U = some u)
    (hR : Nat.Coprime R (p * q)) (hclt : c < p * q * (p * q))
    (hc : c ≡ (p * q + 1) ^ s * R ^ (p * q) [MOD p * q * (p * q)]) :
    decrypt key (toBytes c) = some (.ok (toBytes (s % (p * q)))) := by
  simp only [generateKey] at hgen
  have hkey := Option.some.inj hgen
  subst hkey
  simp only at hu
  have hLu : (p - 1) * (q - 1) * u % (p * q) = 1 := modInverse_spec _ _ _ hu
  obtain h := decrypt_value_core p q s R u c hp hq hpq hR hLu hc
  simp only [decrypt, setBytes_toBytes] at h ⊢
  rw [if_neg (by omega), hu]
  have hstep := int_toNat_step (c ^ ((p - 1) * (q - 1)) % (p * q * (p * q)))
    (p * q) u (p * q) h.1
  simp only [hstep]
  rw [h.2]


/-- Successful Encrypt on the canonical encoding of an in-bound value. -/
theorem encrypt_ok (pub : PublicKey) (r m : Nat) (hm : ¬ pub.NSquared < m) :
    encrypt pub r (toBytes m) = .ok (toBytes (encVal pub r m)) := by
  simp only [encrypt, setBytes_toBytes, encVal]
  rw [if_neg hm]

/-- The ciphertext value of a successful Encrypt is reduced modulo NSquared. -/
theorem encVal_lt (pub : PublicKey) (r m : Nat) (h : 0 < pub.NSquared) :
    encVal pub r m < pub.NSquared :=
  Nat.mod_lt _ h

/-- The ciphertext value of Encrypt is congruent to G^m * r^N modulo NSquared. -/
theorem encVal_modEq (pub : PublicKey) (r m : Nat) :
    encVal pub r m ≡ pub.G ^ m * r ^ pub.N [MOD pub.NSquared] := by
  show _ % _ = _ % _
  simp only [encVal]
  rw [Nat.mod_mod_of_dvd _ dvd_rfl, ← Nat.mul_mod]

/-- The HommorphicEncMultiple loop on canonical in-bound ciphertexts is the
modular-product fold of their values. -/
theorem hommorphicEncMultipleLoop_ok (pub : PublicKey) :
    ∀ (vs : List Nat) (acc : Nat), (∀ v ∈ vs, ¬ pub.NSquared < v) →
    hommorphicEncMultipleLoop pub acc (vs.map toBytes)
      = .ok (vs.foldl (fun a v => a * v % pub.NSquared) acc) := by
  intro vs
  induction vs with
  | nil => intro acc _; rfl
  | cons v vs ih =>
    intro acc h
    simp only [List.map_cons, hommorphicEncMultipleLoop, setBytes_toBytes]
    rw [if_neg (h v (by simp))]
    exact ih _ (fun w hw => h w (by simp [hw]))

/-- A nonempty modular-product fold equals the product modulo n. -/
theorem foldl_mulMod (n : Nat) :
    ∀ (vs : List Nat) (acc : Nat), vs ≠ [] →
    vs.foldl (fun a v => a * v % n) acc = acc * vs.prod % n := by
  intro vs
  induction vs with
  | nil => intro acc h; exact absurd rfl h
  | cons v vs ih =>
    intro acc _
    cases vs with
    | nil => simp
    | cons w ws =>
      rw [List.foldl_cons, ih _ (by simp), List.prod_cons, Nat.mod_mul_mod,
        mul_assoc]
      simp [List.prod_cons]

/-- Folding the pairwise combiner over canonical in-bound ciphertexts is the
same modular-product fold. -/
theorem foldlM_homTwo (pub : PublicKey) :
    ∀ (vs : List Nat) (w : Nat), w < pub.NSquared →
    (∀ v ∈ vs, v < pub.NSquared) →
    (vs.map toBytes).foldlM (fun acc c2 => homomorphicEncTwo pub acc c2)
        (toBytes w)
      = .ok (toBytes (vs.foldl (fun a v => a * v % pub.NSquared) w)) := by
  intro vs
  induction vs with
  | nil => intro w _ _; rfl
  | cons v vs ih =>
    intro w hw h
    simp only [List.map_cons, List.foldlM_cons]
    have h1 : homomorphicEncTwo pub (toBytes w) (toBytes v)
        = .ok (toBytes (w * v % pub.NSquared)) := by
      simp only [homomorphicEncTwo, setBytes_toBytes]
      rw [if_neg (by omega)]
    rw [h1]
    show (vs.map toBytes).foldlM _ (toBytes (w * v % pub.NSquared)) = _
    rw [ih (w * v % pub.NSquared) (Nat.mod_lt _ (by omega))
      (fun x hx => h x (by simp [hx]))]
    rw [List.foldl_cons]

/-- Product of encryption values is congruent to an encryption of the sum
with the product randomness. -/
theorem prod_encVal_modEq (pub : PublicKey) :
    ∀ mrs : List (Nat × Nat),
    (mrs.map fun x => encVal pub x.2 x.1).prod ≡
      pub.G ^ ((mrs.map Prod.fst).sum) * ((mrs.map Prod.snd).prod) ^ pub.N
      [MOD pub.NSquared] := by
  intro mrs
  induction mrs with
  | nil => simp [Nat.ModEq.refl]
  | cons x xs ih =>
    simp only [List.map_cons, List.prod_cons, List.sum_cons]
    have h1 := (encVal_modEq pub x.2 x.1).mul ih
    have h2 : pub.G ^ x.1 * x.2 ^ pub.N *
        (pub.G ^ (xs.map Prod.fst).sum * (xs.map Prod.snd).prod ^ pub.N)
        = pub.G ^ (x.1 + (xs.map Prod.fst).sum) *
          (x.2 * (xs.map Prod.snd).prod) ^ pub.N := by
      rw [pow_add, mul_pow]
      ring
    calc (encVal pub x.2 x.1) * ((xs.map fun x => encVal pub x.2 x.1).prod)
        ≡ pub.G ^ x.1 * x.2 ^ pub.N *
          (pub.G ^ (xs.map Prod.fst).sum * (xs.map Prod.snd).prod ^ pub.N)
          [MOD pub.NSquared] := h1
      _ = pub.G ^ (x.1 + (xs.map Prod.fst).sum) *
          (x.2 * (xs.map Prod.snd).prod) ^ pub.N := h2

/-- A product of values each coprime to n is coprime to n. -/
theorem coprime_list_prod (n : Nat) :
    ∀ rs : List Nat, (∀ r ∈ rs, Nat.Coprime r n) → Nat.Coprime rs.prod n := by
  intro rs
  induction rs with
  | nil => intro _; exact Nat.coprime_one_left n
  | cons r rs ih =>
    intro h
    rw [List.prod_cons]
    exact Nat.Coprime.mul (h r (by simp)) (ih (fun x hx => h x (by simp [hx])))


/-! ## Claims -/

/-- Claim C1, amended: round trip. For every key pair generated from two
DISTINCT primes (whose ModInverse result is present), every sampled
encryption randomness coprime to N, and every plaintext value m with
m < N, Decrypt applied to the result of Encrypt of the encoding of m
returns the byte encoding of m. The restriction to distinct primes is
forced by c1_counterexample: generation does not check distinctness and
the round trip fails on the reachable p = q = 3 key. -/
theorem c1_round_trip (p q r m : Nat) (key : PrivateKey) (u : Nat)
    (hp : p.Prime) (hq : q.Prime) (hpq : p ≠ q)
    (hgen : generateKey (some (p, q)) = some key) (hu : key.U = some u)
    (hr : Nat.Coprime r (p * q)) (hm : m < p * q) :
    ∃ ct : List Nat, encrypt key.pubKey r (toBytes m) = .ok ct ∧
      decrypt key ct = some (.ok (toBytes m)) := by
  have hN1 : 1 < p * q := by
    calc 1 < 2 * 2 := by norm_num
      _ ≤ p * q := Nat.mul_le_mul hp.two_le hq.two_le
  have hNSq : (0 : Nat) < p * q * (p * q) := Nat.mul_pos (by omega) (by omega)
  have hNN : p * q ≤ p * q * (p * q) := by
    have h := Nat.mul_le_mul_left (p * q) (show 1 ≤ p * q by omega)
    simpa using h
  simp only [generateKey] at hgen
  obtain hkey := Option.some.inj hgen
  subst hkey
  refine ⟨toBytes (encVal ⟨p * q, p * q + 1, p * q * (p * q)⟩ r m), ?_, ?_⟩
  · exact encrypt_ok ⟨p * q, p * q + 1, p * q * (p * q)⟩ r m
      (show ¬ p * q * (p * q) < m by omega)
  · have hdec := decrypt_generated_key p q m r u
      (encVal ⟨p * q, p * q + 1, p * q * (p * q)⟩ r m) _ hp hq hpq rfl hu hr
      (show encVal ⟨p * q, p * q + 1, p * q * (p * q)⟩ r m < p * q * (p * q)
        from encVal_lt _ r m hNSq)
      (encVal_modEq _ r m)
    rwa [Nat.mod_eq_of_lt hm] at hdec

/-- Claim C2, amended: pairwise additive homomorphism, for key pairs
generated from two DISTINCT primes (restriction forced by
c2_counterexample). Encrypting m1 and m2 (with randomness coprime to N),
combining with HomomorphicEncTwo and decrypting yields the byte encoding
of (m1 + m2) mod N. -/
theorem c2_additive_homomorphism (p q r1 r2 m1 m2 : Nat) (key : PrivateKey)
    (u : Nat) (hp : p.Prime) (hq : q.Prime) (hpq : p ≠ q)
    (hgen : generateKey (some (p, q)) = some key) (hu : key.U = some u)
    (hr1 : Nat.Coprime r1 (p * q)) (hr2 : Nat.Coprime r2 (p * q))
    (hm1 : m1 < p * q) (hm2 : m2 < p * q) :
    ∃ c1 c2 cc : List Nat,
      encrypt key.pubKey r1 (toBytes m1) = .ok c1 ∧
      encrypt key.pubKey r2 (toBytes m2) = .ok c2 ∧
      homomorphicEncTwo key.pubKey c1 c2 = .ok cc ∧
      decrypt key cc = some (.ok (toBytes ((m1 + m2) % (p * q)))) := by
  have hN1 : 1 < p * q := by
    calc 1 < 2 * 2 := by norm_num
      _ ≤ p * q := Nat.mul_le_mul hp.two_le hq.two_le
  have hNSq : (0 : Nat) < p * q * (p * q) := Nat.mul_pos (by omega) (by omega)
  have hNN : p * q ≤ p * q * (p * q) := by
    have h := Nat.mul_le_mul_left (p * q) (show 1 ≤ p * q by omega)
    simpa using h
  simp only [generateKey] at hgen
  obtain hkey := Option.some.inj hgen
  subst hkey
  have hv1 : encVal ⟨p * q, p * q + 1, p * q * (p * q)⟩ r1 m1 < p * q * (p * q) :=
    encVal_lt _ r1 m1 hNSq
  have hv2 : encVal ⟨p * q, p * q + 1, p * q * (p * q)⟩ r2 m2 < p * q * (p * q) :=
    encVal_lt _ r2 m2 hNSq
  refine ⟨toBytes (encVal ⟨p * q, p * q + 1, p * q * (p * q)⟩ r1 m1),
    toBytes (encVal ⟨p * q, p * q + 1, p * q * (p * q)⟩ r2 m2),
    toBytes (encVal ⟨p * q, p * q + 1, p * q * (p * q)⟩ r1 m1 *
      encVal ⟨p * q, p * q + 1, p * q * (p * q)⟩ r2 m2 % (p * q * (p * q))),
    ?_, ?_, ?_, ?_⟩
  · exact encrypt_ok ⟨p * q, p * q + 1, p * q * (p * q)⟩ r1 m1
      (show ¬ p * q * (p * q) < m1 by omega)
  · exact encrypt_ok ⟨p * q, p * q + 1, p * q * (p * q)⟩ r2 m2
      (show ¬ p * q * (p * q) < m2 by omega)
  · simp only [homomorphicEncTwo, setBytes_toBytes]
    rw [if_neg (show ¬ (p * q * (p * q) <
        encVal ⟨p * q, p * q + 1, p * q * (p * q)⟩ r1 m1 ∧ p * q * (p * q) <
        encVal ⟨p * q, p * q + 1, p * q * (p * q)⟩ r2 m2) by omega)]
  · have hcong : encVal ⟨p * q, p * q + 1, p * q * (p * q)⟩ r1 m1 *
        encVal ⟨p * q, p * q + 1, p * q * (p * q)⟩ r2 m2 % (p * q * (p * q)) ≡
        (p * q + 1) ^ (m1 + m2) * (r1 * r2) ^ (p * q)
        [MOD p * q * (p * q)] := by
      have h1 := (encVal_modEq ⟨p * q, p * q + 1, p * q * (p * q)⟩ r1 m1).mul
        (encVal_modEq ⟨p * q, p * q + 1, p * q * (p * q)⟩ r2 m2)
      have h2 : (p * q + 1) ^ m1 * r1 ^ (p * q) *
          ((p * q + 1) ^ m2 * r2 ^ (p * q))
          = (p * q + 1) ^ (m1 + m2) * (r1 * r2) ^ (p * q) := by
        rw [pow_add, mul_pow]
        ring
      calc encVal ⟨p * q, p * q + 1, p * q * (p * q)⟩ r1 m1 *
          encVal ⟨p * q, p * q + 1, p * q * (p * q)⟩ r2 m2 % (p * q * (p * q))
          ≡ encVal ⟨p * q, p * q + 1, p * q * (p * q)⟩ r1 m1 *
            encVal ⟨p * q, p * q + 1, p * q * (p * q)⟩ r2 m2
            [MOD p * q * (p * q)] := Nat.mod_modEq _ _
        _ ≡ (p * q + 1) ^ m1 * r1 ^ (p * q) *
            ((p * q + 1) ^ m2 * r2 ^ (p * q)) [MOD p * q * (p * q)] := h1
        _ = (p * q + 1) ^ (m1 + m2) * (r1 * r2) ^ (p * q) := h2
    have hdec := decrypt_generated_key p q (m1 + m2) (r1 * r2) u
      (encVal ⟨p * q, p * q + 1, p * q * (p * q)⟩ r1 m1 *
        encVal ⟨p * q, p * q + 1, p * q * (p * q)⟩ r2 m2 % (p * q * (p * q)))
      _ hp hq hpq rfl hu (Nat.Coprime.mul hr1 hr2) (Nat.mod_lt _ hNSq) hcong
    exact hdec

/-- Claim C3, amended: the n-ary combiner refines repeated pairwise
combination, and decrypting a combination of encryptions yields the sum
of the plaintexts modulo N, for key pairs generated from two DISTINCT
primes (restriction of the sum half forced by c3_counterexample; the
refinement half is unconditional in the key). First half: for every
public key and nonempty list of in-bound ciphertext values (canonically
encoded), HommorphicEncMultiple equals the fold of HomomorphicEncTwo.
Second half: for a generated key and a nonempty list of
plaintext/randomness pairs, the inputs are exactly what Encrypt returns,
and decrypting the n-ary combination gives the encoding of the sum
modulo N. -/
theorem c3_nary_combination (p q : Nat) (key : PrivateKey) (u : Nat)
    (hp : p.Prime) (hq : q.Prime) (hpq : p ≠ q)
    (hgen : generateKey (some (p, q)) = some key) (hu : key.U = some u) :
    (∀ (pub : PublicKey) (vs : List Nat), vs ≠ [] →
      (∀ v ∈ vs, v < pub.NSquared) →
      hommorphicEncMultiple pub (vs.map toBytes)
        = homomorphicCombineManySpec pub (vs.map toBytes)) ∧
    (∀ mrs : List (Nat × Nat), mrs ≠ [] →
      (∀ x ∈ mrs, x.1 < p * q ∧ Nat.Coprime x.2 (p * q)) →
      (∀ x ∈ mrs, encrypt key.pubKey x.2 (toBytes x.1)
          = .ok (toBytes (encVal key.pubKey x.2 x.1))) ∧
      ∃ cc : List Nat,
        hommorphicEncMultiple key.pubKey
          (mrs.map fun x => toBytes (encVal key.pubKey x.2 x.1)) = .ok cc ∧
        decrypt key cc
          = some (.ok (toBytes ((mrs.map Prod.fst).sum % (p * q))))) := by
  constructor
  · intro pub vs hne h
    cases vs with
    | nil => exact absurd rfl hne
    | cons v vs =>
      have hv : v < pub.NSquared := h v (by simp)
      have hvs : ∀ w ∈ vs, w < pub.NSquared := fun w hw => h w (by simp [hw])
      have hloop := hommorphicEncMultipleLoop_ok pub (v :: vs) 1
        (fun w hw => by have := h w hw; omega)
      have hspec := foldlM_homTwo pub vs v hv hvs
      have hfold : List.foldl (fun a w => a * w % pub.NSquared) 1 (v :: vs)
          = List.foldl (fun a w => a * w % pub.NSquared) v vs := by
        rw [List.foldl_cons, one_mul, Nat.mod_eq_of_lt hv]
      simp only [List.map_cons] at hloop
      simp only [hommorphicEncMultiple, homomorphicCombineManySpec,
        List.map_cons, hloop, hfold, hspec]
      rfl
  · intro mrs hne h
    have hN1 : 1 < p * q := by
      calc 1 < 2 * 2 := by norm_num
        _ ≤ p * q := Nat.mul_le_mul hp.two_le hq.two_le
    have hNSq : (0 : Nat) < p * q * (p * q) := Nat.mul_pos (by omega) (by omega)
    have hNN : p * q ≤ p * q * (p * q) := by
      have hh := Nat.mul_le_mul_left (p * q) (show 1 ≤ p * q by omega)
      simpa using hh
    simp only [generateKey] at hgen
    obtain hkey := Option.some.inj hgen
    subst hkey
    constructor
    · intro x hx
      exact encrypt_ok ⟨p * q, p * q + 1, p * q * (p * q)⟩ x.2 x.1
        (show ¬ p * q * (p * q) < x.1 by have := (h x hx).1; omega)
    · have hvals : ∀ w ∈ mrs.map fun x =>
          encVal ⟨p * q, p * q + 1, p * q * (p * q)⟩ x.2 x.1,
          ¬ p * q * (p * q) < w := by
        intro w hw
        obtain ⟨x, _, rfl⟩ := List.mem_map.mp hw
        have hlt : encVal ⟨p * q, p * q + 1, p * q * (p * q)⟩ x.2 x.1
            < p * q * (p * q) := encVal_lt _ x.2 x.1 hNSq
        omega
      have hmap : (mrs.map fun x =>
            toBytes (encVal ⟨p * q, p * q + 1, p * q * (p * q)⟩ x.2 x.1))
          = ((mrs.map fun x =>
            encVal ⟨p * q, p * q + 1, p * q * (p * q)⟩ x.2 x.1).map toBytes) := by
        rw [List.map_map]
        rfl
      have hloop : hommorphicEncMultipleLoop
          ⟨p * q, p * q + 1, p * q * (p * q)⟩ 1
          ((mrs.map fun x =>
            encVal ⟨p * q, p * q + 1, p * q * (p * q)⟩ x.2 x.1).map toBytes)
          = .ok (List.foldl (fun a v => a * v % (p * q * (p * q))) 1
            (mrs.map fun x =>
              encVal ⟨p * q, p * q + 1, p * q * (p * q)⟩ x.2 x.1)) :=
        hommorphicEncMultipleLoop_ok ⟨p * q, p * q + 1, p * q * (p * q)⟩
          (mrs.map fun x => encVal ⟨p * q, p * q + 1, p * q * (p * q)⟩ x.2 x.1)
          1 hvals
      have hnil : (mrs.map fun x =>
          encVal ⟨p * q, p * q + 1, p * q * (p * q)⟩ x.2 x.1) ≠ [] := by
        cases mrs with
        | nil => exact absurd rfl hne
        | cons y ys => simp
      have hfold := foldl_mulMod (p * q * (p * q))
        (mrs.map fun x => encVal ⟨p * q, p * q + 1, p * q * (p * q)⟩ x.2 x.1)
        1 hnil
      refine ⟨toBytes ((mrs.map fun x =>
        encVal ⟨p * q, p * q + 1, p * q * (p * q)⟩ x.2 x.1).prod %
          (p * q * (p * q))), ?_, ?_⟩
      · simp only [hommorphicEncMultiple, hmap, hloop, hfold, one_mul]
        rfl
      · have hR : Nat.Coprime ((mrs.map Prod.snd).prod) (p * q) :=
          coprime_list_prod (p * q) (mrs.map Prod.snd) (by
            intro x hx
            obtain ⟨y, hy, rfl⟩ := List.mem_map.mp hx
            exact (h y hy).2)
        have hcong : (mrs.map fun x =>
            encVal ⟨p * q, p * q + 1, p * q * (p * q)⟩ x.2 x.1).prod %
              (p * q * (p * q)) ≡
            (p * q + 1) ^ ((mrs.map Prod.fst).sum) *
              ((mrs.map Prod.snd).prod) ^ (p * q)
            [MOD p * q * (p * q)] :=
          (Nat.mod_modEq _ _).trans
            (prod_encVal_modEq ⟨p * q, p * q + 1, p * q * (p * q)⟩ mrs)
        exact decrypt_generated_key p q ((mrs.map Prod.fst).sum)
          ((mrs.map Prod.snd).prod)
          u ((mrs.map fun x =>
            encVal ⟨p * q, p * q + 1, p * q * (p * q)⟩ x.2 x.1).prod %
              (p * q * (p * q)))
          _ hp hq hpq rfl hu hR (Nat.mod_lt _ hNSq) hcong

/-- Claim C4: the n-ary combiner applied to an empty sequence succeeds and
returns the byte encoding of the integer 1. -/
theorem c4_empty_combination (pub : PublicKey) :
    hommorphicEncMultiple pub [] = .ok (toBytes 1) := rfl

/-- Claim C5, counterexample: with the public key of p = 3, q = 5
(N = 15, NSquared = 225) and plaintext encoding m = 15 = N (so m is out
of the claimed bound [0, N)), Encrypt succeeds instead of returning
LargeMessageError. -/
theorem c5_counterexample :
    (encrypt ⟨15, 16, 225⟩ 2 (toBytes 15)).isOk = true := by decide

/-- Claim C5, amended: Encrypt returns LargeMessageError exactly when the
plaintext's integer value is strictly greater than NSquared (the source
checks m against N^2, not N, and accepts the boundary value m = N^2);
no ciphertext is produced in that case. -/
theorem c5_encrypt_bound (pub : PublicKey) (r : Nat) (plainText : List Nat) :
    encrypt pub r plainText = .error .largeMessage ↔
      pub.NSquared < setBytes plainText := by
  simp only [encrypt]
  by_cases h : pub.NSquared < setBytes plainText
  · simp [h]
  · simp [h]

/-- Claim C6, counterexample: with the key generated from p = 3, q = 5
and a ciphertext of value exactly N^2 = 225 (which is not strictly less
than N^2), Decrypt succeeds (returning the encoding of 13) instead of
returning LargeCipherError. -/
theorem c6_counterexample :
    decrypt ⟨⟨15, 16, 225⟩, 8, some 2⟩ (toBytes 225)
      = some (.ok (toBytes 13)) := by decide

/-- Claim C6, amended: Decrypt returns LargeCipherError exactly when the
ciphertext's integer value is strictly greater than NSquared (the source
accepts the boundary value c = N^2); no plaintext is produced on
failure. -/
theorem c6_decrypt_bound (priv : PrivateKey) (cipherText : List Nat) :
    decrypt priv cipherText = some (.error .largeCipher) ↔
      priv.pubKey.NSquared < setBytes cipherText := by
  simp only [decrypt]
  by_cases h : priv.pubKey.NSquared < setBytes cipherText
  · simp [h]
  · simp only [if_neg h]
    cases priv.U <;> simp [h]

/-- Claim C7, failing input: with the public key of p = 3, q = 5
(NSquared = 225), first operand of value 226 > N^2 and second operand of
value 1, HomomorphicEncTwo accepts (the source requires BOTH operands to
exceed N^2 before rejecting) and returns the encoding of
226 * 1 mod 225 = 1, instead of the LargeCipherError the claim (and the
spec's validation policy) requires for a single oversized operand. -/
theorem c7_failing_input :
    homomorphicEncTwo ⟨15, 16, 225⟩ (toBytes 226) (toBytes 1)
      = .ok (toBytes 1) := by decide

/-- Claim C8, failing input: GenerateKey propagates a prime-sampling
failure (first conjunct), but when the modular inverse of L modulo N does
not exist it does NOT return an error: with sampled primes p = 2, q = 3
(both two-bit primes, reachable with bitSize 4), L = 2 has no inverse
modulo N = 6, yet a key pair is returned, with U = nil (second
conjunct). -/
theorem c8_generation_inverse_unchecked :
    generateKey none = none ∧
    generateKey (some (2, 3))
      = some ⟨⟨6, 7, 36⟩, 2, none⟩ := by decide

/-- Claim C9, counterexample: the key pair successfully returned for the
sampled primes p = 2, q = 3 has U = nil, so it does not satisfy the
claimed invariant (U × L) mod N = 1 (there is no inverse value at all). -/
theorem c9_counterexample :
    (generateKey (some (2, 3))).map PrivateKey.U = some none := by decide

/-- Claim C9, amended: every key pair returned successfully by key
generation satisfies G = N + 1 and NSquared = N × N; and whenever its U
field is present (the modular inverse existed, which holds for every
generated key except the degenerate p = 2, q = 3 case),
(U × L) mod N = 1. -/
theorem c9_key_invariants (p q : Nat) (key : PrivateKey)
    (hgen : generateKey (some (p, q)) = some key) :
    key.pubKey.G = key.pubKey.N + 1 ∧
    key.pubKey.NSquared = key.pubKey.N * key.pubKey.N ∧
    ∀ u : Nat, key.U = some u → u * key.L % key.pubKey.N = 1 := by
  simp only [generateKey] at hgen
  obtain hkey := Option.some.inj hgen
  subst hkey
  refine ⟨rfl, rfl, ?_⟩
  intro u hu
  simp only at hu
  have h := modInverse_spec _ _ _ hu
  rwa [Nat.mul_comm] at h

/-- Witness for c9_key_invariants at p = 3, q = 5. -/
theorem c9_witness :
    (16 : Nat) = 15 + 1 ∧ (225 : Nat) = 15 * 15 ∧
    ∀ u : Nat, (some 2 : Option Nat) = some u → u * 8 % 15 = 1 :=
  c9_key_invariants 3 5 ⟨⟨15, 16, 225⟩, 8, some 2⟩ (by decide)

/-- Claim C10: whenever Decrypt accepts a ciphertext (N positive), the
returned plaintext bytes encode an integer in [0, N): the result is
reduced modulo N before encoding. -/
theorem c10_decrypt_range (priv : PrivateKey) (cipherText plainText : List Nat)
    (hN : 0 < priv.pubKey.N)
    (h : decrypt priv cipherText = some (.ok plainText)) :
    setBytes plainText < priv.pubKey.N := by
  simp only [decrypt] at h
  by_cases hc : priv.pubKey.NSquared < setBytes cipherText
  · rw [if_pos hc] at h
    simp at h
  · rw [if_neg hc] at h
    cases hU : priv.U with
    | none => rw [hU] at h; simp at h
    | some u =>
      rw [hU] at h
      simp only [Option.some.injEq, Except.ok.injEq] at h
      subst h
      rw [setBytes_toBytes]
      have hN' : ((priv.pubKey.N : Int)) ≠ 0 := by
        exact_mod_cast Nat.pos_iff_ne_zero.mp hN
      have h1 : (0 : Int) ≤ Int.emod
          (Int.ediv ((((setBytes cipherText) ^ priv.L %
            priv.pubKey.NSquared : Nat) : Int) - 1) (priv.pubKey.N : Int) *
            (u : Int)) (priv.pubKey.N : Int) :=
        Int.emod_nonneg _ hN'
      have h2 : Int.emod
          (Int.ediv ((((setBytes cipherText) ^ priv.L %
            priv.pubKey.NSquared : Nat) : Int) - 1) (priv.pubKey.N : Int) *
            (u : Int)) (priv.pubKey.N : Int) < (priv.pubKey.N : Int) :=
        Int.emod_lt_of_pos _ (show (0 : Int) < (priv.pubKey.N : Int) by
          exact_mod_cast hN)
      omega

/-- Witness for c10_decrypt_range on the key generated from p = 3, q = 5
and the accepted ciphertext of value 225. -/
theorem c10_witness : setBytes (toBytes 13) < 15 :=
  c10_decrypt_range ⟨⟨15, 16, 225⟩, 8, some 2⟩ (toBytes 225) (toBytes 13)
    (by decide) (by decide)

/-- Witness for c1_round_trip: p = 3, q = 5, r = 2, m = 7. -/
theorem c1_witness :
    ∃ ct : List Nat,
      encrypt ⟨15, 16, 225⟩ 2 (toBytes 7) = .ok ct ∧
      decrypt ⟨⟨15, 16, 225⟩, 8, some 2⟩ ct = some (.ok (toBytes 7)) :=
  c1_round_trip 3 5 2 7 ⟨⟨15, 16, 225⟩, 8, some 2⟩ 2 (by norm_num)
    (by norm_num) (by decide) (by decide) (by decide)
    (show Nat.gcd 2 15 = 1 by decide) (by decide)

/-- Witness for c2_additive_homomorphism: p = 3, q = 5, r1 = 2, r2 = 7,
m1 = 4, m2 = 9. -/
theorem c2_witness :
    ∃ c1 c2 cc : List Nat,
      encrypt ⟨15, 16, 225⟩ 2 (toBytes 4) = .ok c1 ∧
      encrypt ⟨15, 16, 225⟩ 7 (toBytes 9) = .ok c2 ∧
      homomorphicEncTwo ⟨15, 16, 225⟩ c1 c2 = .ok cc ∧
      decrypt ⟨⟨15, 16, 225⟩, 8, some 2⟩ cc
        = some (.ok (toBytes ((4 + 9) % 15))) :=
  c2_additive_homomorphism 3 5 2 7 4 9 ⟨⟨15, 16, 225⟩, 8, some 2⟩ 2
    (by norm_num) (by norm_num) (by decide) (by decide) (by decide)
    (show Nat.gcd 2 15 = 1 by decide) (show Nat.gcd 7 15 = 1 by decide)
    (by decide) (by decide)

/-- Witness for c3_nary_combination: p = 3, q = 5, refinement checked on
the value list [3, 4] and the homomorphism on the single encryption of
m = 7 with r = 2. -/
theorem c3_witness :
    (hommorphicEncMultiple ⟨15, 16, 225⟩ ([3, 4].map toBytes)
      = homomorphicCombineManySpec ⟨15, 16, 225⟩ ([3, 4].map toBytes)) ∧
    ((∀ x ∈ [((7 : Nat), (2 : Nat))], encrypt ⟨15, 16, 225⟩ x.2 (toBytes x.1)
        = .ok (toBytes (encVal ⟨15, 16, 225⟩ x.2 x.1))) ∧
      ∃ cc : List Nat,
        hommorphicEncMultiple ⟨15, 16, 225⟩
          ([((7 : Nat), (2 : Nat))].map fun x =>
            toBytes (encVal ⟨15, 16, 225⟩ x.2 x.1)) = .ok cc ∧
        decrypt ⟨⟨15, 16, 225⟩, 8, some 2⟩ cc
          = some (.ok (toBytes
            (([((7 : Nat), (2 : Nat))].map Prod.fst).sum % 15)))) :=
  ⟨(c3_nary_combination 3 5 ⟨⟨15, 16, 225⟩, 8, some 2⟩ 2 (by norm_num)
      (by norm_num) (by decide) (by decide) (by decide)).1
      ⟨15, 16, 225⟩ [3, 4] (by decide) (by decide),
   (c3_nary_combination 3 5 ⟨⟨15, 16, 225⟩, 8, some 2⟩ 2 (by norm_num)
      (by norm_num) (by decide) (by decide) (by decide)).2
      [(7, 2)] (by decide) (by
        intro x hx
        simp only [List.mem_singleton] at hx
        subst hx
        exact ⟨by decide, show Nat.gcd 2 15 = 1 by decide⟩)⟩

/-- Claim C1, counterexample: generation does not require distinct primes.
With bitSize 4 both rand.Prime(random, 2) draws return p = q = 3, so the
key N = 9, G = 10, NSquared = 81, L = 4, U = some 7 is a really generated
key pair (U present), and Encrypt of m = 1 with the sampled randomness
r = 13 (the deterministic rand.Prime(rand.Reader, 4) draw) gives the
ciphertext encoding 37, which Decrypt maps to the encoding of 4, not of
m = 1. So the round trip fails on a generated key pair and the claim as
stated (over every generated key pair) is false. -/
theorem c1_counterexample :
    generateKey (some (3, 3)) = some ⟨⟨9, 10, 81⟩, 4, some 7⟩ ∧
    encrypt ⟨9, 10, 81⟩ 13 (toBytes 1) = .ok (toBytes 37) ∧
    decrypt ⟨⟨9, 10, 81⟩, 4, some 7⟩ (toBytes 37)
      = some (.ok (toBytes 4)) := by decide

/-- Claim C2, counterexample: on the same reachable p = q = 3 generated
key (see c1_counterexample), both encryptions of m1 = m2 = 1 are the
encoding of 37; HomomorphicEncTwo combines them to the encoding of
37 * 37 mod 81 = 73, and Decrypt maps that to the encoding of 8, not of
(1 + 1) mod 9 = 2. So the pairwise homomorphism fails on a generated key
pair and the claim as stated is false. -/
theorem c2_counterexample :
    encrypt ⟨9, 10, 81⟩ 13 (toBytes 1) = .ok (toBytes 37) ∧
    homomorphicEncTwo ⟨9, 10, 81⟩ (toBytes 37) (toBytes 37)
      = .ok (toBytes 73) ∧
    decrypt ⟨⟨9, 10, 81⟩, 4, some 7⟩ (toBytes 73)
      = some (.ok (toBytes 8)) := by decide

/-- Claim C3, counterexample: on the reachable p = q = 3 generated key
(see c1_counterexample), the n-ary combination of the single encryption
of m = 1 (ciphertext encoding 37) is the encoding of 37, which Decrypt
maps to the encoding of 4, not of the sum 1 mod 9 = 1. So the sum half of
the claim fails on a generated key pair and the claim as stated is
false. -/
theorem c3_counterexample :
    hommorphicEncMultiple ⟨9, 10, 81⟩ [toBytes 37] = .ok (toBytes 37) ∧
    decrypt ⟨⟨9, 10, 81⟩, 4, some 7⟩ (toBytes 37)
      = some (.ok (toBytes 4)) ∧ toBytes 4 ≠ toBytes (1 % 9) := by decide

end Paillier
